import Mathlib

/-!
# Verification of the `ts_utils` traversal core

This development embeds the traversal engine of the `ts_utils` repository:

* `cursor_utils.py` — the `TreeSpec` tree adapter, the `GenericCursor`
  implementation and the `tuple_cursor` constructor;
* `traversals.py` — the `Moves` vocabulary, the iterative `traverse` loop,
  the `with_height` stream transform, and the `Height` and `BroadcastL`
  traversal hooks;
* `iter.py` — `iternodes` (a projection of the `traverse` stream; the module
  imports the engine under the name `walk_tree`, which is `traverse`) and the
  independently implemented `iternodes_with_edges` loop.

Trees are the nested-tuple trees accepted by `tuple_cursor`: a node value
together with a list of child trees (`(value, child1, child2, ...)`; a bare
value is a node with no children).  Python exceptions (`IndexError` raised by
`list.pop` on an empty list or by out-of-range indexing) are modelled by
`Option`, with `none` marking a raised exception.  Python lists used as
stacks (`parent_stack`, `context_stack`, the broadcast stack) are modelled as
Lean lists whose *head* is the top of the Python list (its last element); the
cursor `path`, which the source reads from the front in `node_at_path` and
mutates at the back, keeps the source's root-first order.  The `while` loops
of the generators are modelled with an explicit fuel argument that falls by
one on every iteration of either the outer loop or the inner retracing loop;
the fuel passed by the top-level wrappers is proved sufficient.  Predicates
received by the engine (`should_traverse`, `traversal_filter`) are applied by
the repository to the current node value (`cursor.node`), so they are
modelled as functions of the node value.
-/

namespace TsUtils

/-! ## Tuple trees

`TupleNode` from `cursor_utils.py`: `(node_value, child1, child2, ...)`, a
bare value being a leaf. -/

inductive Tree (α : Type) : Type where
  | node (val : α) (children : List (Tree α)) : Tree α

namespace Tree

def val : Tree α → α
  | node v _ => v

def children : Tree α → List (Tree α)
  | node _ cs => cs

mutual

/-- Node count of a tree (used only for fuel bounds). -/
def size : Tree α → Nat
  | node _ cs => 1 + sizeL cs

def sizeL : List (Tree α) → Nat
  | [] => 0
  | t :: ts => size t + sizeL ts

end

/-- `child_count` of `tuple_cursor`'s tree spec: number of children. -/
def childCount (t : Tree α) : Nat := t.children.length

/-- `get_child_at_index` of `tuple_cursor`'s tree spec; `none` is the
`IndexError` raised on an out-of-range index. -/
def childAt (t : Tree α) (i : Nat) : Option (Tree α) := t.children[i]?

/-- `get_value` of `tuple_cursor`'s tree spec. -/
def getValue (t : Tree α) : α := t.val

/-- `TreeSpec.is_leaf`: `child_count(node) == 0`. -/
def isLeaf (t : Tree α) : Bool := childCount t == 0

end Tree

/-- `TreeSpec.node_at_path`: follow a sequence of child indices from a node.
`none` is the `IndexError` raised by `get_child` on a bad index. -/
def nodeAtPath (t : Tree α) (path : List Nat) : Option (Tree α) :=
  path.foldl (fun curr i => curr.bind (fun c => c.childAt i)) (some t)

/-! ## `GenericCursor` (`cursor_utils.py`)

State of a `GenericCursor` specialised to the tuple-tree spec.  `_node` and
`_node_dirty` are the lazy node cache.  `parentStack` holds the physical
ancestor nodes, most recently pushed first. -/

structure GenericCursor (α : Type) : Type where
  tree : Tree α
  path : List Nat
  parentStack : List (Tree α)
  nodeCache : Tree α
  nodeDirty : Bool

/-- `tuple_cursor(tree)`: `GenericCursor.__init__` with the default empty
path sets `path = []`, `parent_stack = []`, `_node = tree`,
`_node_dirty = True`. -/
def tupleCursor (t : Tree α) : GenericCursor α := ⟨t, [], [], t, true⟩

namespace GenericCursor

/-- The `node` property: recompute from the path when dirty, else read the
cache; project with `get_value`.  (The source also stores the recomputed
node back into the cache; that mutation cannot change any later observed
value, so the model returns the value only.) -/
def node (c : GenericCursor α) : Option α :=
  if c.nodeDirty then (nodeAtPath c.tree c.path).map Tree.getValue
  else some c.nodeCache.getValue

/-- `copy()`: `GenericCursor(self.tree, self.tree_spec, path=tuple(self.path))`.
`__init__` starts with an *empty* `parent_stack` and a dirty cache whatever
the path is. -/
def copy (c : GenericCursor α) : GenericCursor α :=
  ⟨c.tree, c.path, [], c.tree, true⟩

/-- `goto_first_child`: recompute the current node from the path; if it is
not a leaf, push it on `parent_stack`, append `0` to the path and mark the
cache dirty. -/
def gotoFirstChild (c : GenericCursor α) : Option (Bool × GenericCursor α) :=
  match nodeAtPath c.tree c.path with
  | none => none
  | some curr =>
    if ¬ curr.isLeaf then
      some (true, ⟨c.tree, c.path ++ [0], curr :: c.parentStack, c.nodeCache, true⟩)
    else
      some (false, c)

/-- `goto_parent`: fails (returns `false`) on an empty path; otherwise pops
`parent_stack` into the node cache — raising `IndexError` (`none`) when the
stack is empty — and drops the last path entry. -/
def gotoParent (c : GenericCursor α) : Option (Bool × GenericCursor α) :=
  if c.path = [] then some (false, c)
  else
    match c.parentStack with
    | [] => none
    | p :: rest => some (true, ⟨c.tree, c.path.dropLast, rest, p, false⟩)

/-- `goto_next_sibling`: at the root (`parent_stack` empty) there are no
siblings; otherwise read the last path index — `path[-1]` raises (`none`)
on an empty path — and advance it when the parent has a further child. -/
def gotoNextSibling (c : GenericCursor α) : Option (Bool × GenericCursor α) :=
  match c.parentStack with
  | [] => some (false, c)
  | parent :: _ =>
    match c.path.getLast? with
    | none => none
    | some i =>
      if i + 1 < parent.childCount then
        some (true, ⟨c.tree, c.path.dropLast ++ [i + 1], c.parentStack, c.nodeCache, true⟩)
      else
        some (false, c)

end GenericCursor

/-! ## The `traverse` engine (`traversals.py`) -/

/-- The moves a cursor can make, in source order. -/
inductive Moves : Type where
  | RIGHT : Moves
  | UP : Moves
  | DOWN : Moves
deriving DecidableEq, Repr

/-- One emitted step: the node value read from the yielded cursor, and the
move. -/
abbrev Step (α : Type) := α × Moves

mutual

/-- Body of `traverse`'s `while not reached_root` loop, from the top of an
iteration: evaluate `should_traverse`, emit the current node unless skipped,
descend into a first child (`last_move = DOWN`), or emit the synthetic leaf
`UP` and fall through to the sibling-or-retrace step. -/
def traverseAux (pred : α → Bool) : Nat → GenericCursor α → Moves → Option (List (Step α))
  | 0, _, _ => none
  | fuel + 1, c, lastMove =>
    match c.node with
    | none => none
    | some v =>
      if pred v then
        match c.gotoFirstChild with
        | none => none
        | some (moved, c1) =>
          if moved then
            (List.cons (v, lastMove)) <$> traverseAux pred fuel c1 .DOWN
          else
            -- leaf: pretend we visited the empty subtree and came back up
            (fun l => (v, lastMove) :: (v, .UP) :: l) <$> sibGo pred fuel c1 false
      else
        sibGo pred fuel c true

/-- Lines 73-87 of `traversals.py`: try `goto_next_sibling` (with
`last_move` `DOWN` when the finished node was skipped, `RIGHT` otherwise),
else start retracing. -/
def sibGo (pred : α → Bool) : Nat → GenericCursor α → Bool → Option (List (Step α))
  | 0, _, _ => none
  | fuel + 1, c, skip =>
    match c.gotoNextSibling with
    | none => none
    | some (moved, c1) =>
      if moved then
        traverseAux pred fuel c1 (if skip then .DOWN else .RIGHT)
      else
        retraceAux pred fuel c1

/-- The inner `while retracing` loop: `goto_parent` (termination of the
whole traversal when it fails), emit `(parent, UP)`, and resume at a next
sibling with `last_move = RIGHT` when one exists. -/
def retraceAux (pred : α → Bool) : Nat → GenericCursor α → Option (List (Step α))
  | 0, _ => none
  | fuel + 1, c =>
    match c.gotoParent with
    | none => none
    | some (moved, c1) =>
      if moved then
        match c1.node with
        | none => none
        | some pv =>
          match c1.gotoNextSibling with
          | none => none
          | some (m2, c2) =>
            if m2 then
              (List.cons (pv, .UP)) <$> traverseAux pred fuel c2 .RIGHT
            else
              (List.cons (pv, .UP)) <$> retraceAux pred fuel c1
      else
        some []

end

/-- `should_traverse` defaulting: `skip = not should_traverse(cursor) if
should_traverse else False`. -/
def effPred {α : Type} : Option (α → Bool) → α → Bool
  | none, _ => true
  | some f, v => f v

/-- `traverse(tuple_cursor(tree), should_traverse)` run to completion as a
list of steps.  `last_move` starts as `DOWN`; the fuel is sufficient (proved
below), so `none` can only arise from a raised exception. -/
def traverseRun (t : Tree α) (shouldTraverse : Option (α → Bool)) : Option (List (Step α)) :=
  traverseAux (effPred shouldTraverse) (2 * t.size + 2) (tupleCursor t) .DOWN

/-! ## Derived iterators (`iter.py`) -/

/-- `filter_moves(*moves)`: keep the steps whose move is among `moves`. -/
def filterMoves (moves : List Moves) : List (Step α) → List (Step α) :=
  fun l => l.filter (fun x => decide (x.2 ∈ moves))

/-- `iternodes(cursor, traversal_filter)`: run the engine with
`should_traverse = lambda cursor: traversal_filter(cursor.node) if
traversal_filter else True`, keep the `DOWN`/`RIGHT` steps, project to the
node value. -/
def iternodesRun (t : Tree α) (traversalFilter : Option (α → Bool)) : Option (List α) :=
  (traverseRun t (some (fun v => effPred traversalFilter v))).map
    (fun steps => (filterMoves [.DOWN, .RIGHT] steps).map (fun st => st.1))

mutual

/-- Body of `iternodes_with_edges`' outer `while` loop: read the node, and
when the filter passes, yield `(node, parent_stack[-1] or None,
cursor.current_field_name())` and try to descend (pushing the node);
otherwise, or on a leaf, fall through to the sibling attempt.
`current_field_name` exists only on tree-sitter cursors, so it is modelled
as an arbitrary function `fname` of the cursor state. -/
def wteAux (pred : α → Bool) (fname : GenericCursor α → γ) :
    Nat → GenericCursor α → List α → Option (List (α × Option α × γ))
  | 0, _, _ => none
  | fuel + 1, c, ps =>
    match c.node with
    | none => none
    | some v =>
      if pred v then
        match c.gotoFirstChild with
        | none => none
        | some (moved, c1) =>
          if moved then
            (List.cons (v, ps.head?, fname c)) <$> wteAux pred fname fuel c1 (v :: ps)
          else
            (List.cons (v, ps.head?, fname c)) <$> wteSib pred fname fuel c1 ps
      else
        wteSib pred fname fuel c ps

/-- `iternodes_with_edges`' `goto_next_sibling` attempt between the descent
and the retracing loop. -/
def wteSib (pred : α → Bool) (fname : GenericCursor α → γ) :
    Nat → GenericCursor α → List α → Option (List (α × Option α × γ))
  | 0, _, _ => none
  | fuel + 1, c, ps =>
    match c.gotoNextSibling with
    | none => none
    | some (moved, c1) =>
      if moved then wteAux pred fname fuel c1 ps
      else wteRetrace pred fname fuel c1 ps

/-- `iternodes_with_edges`' inner `while retracing` loop: `goto_parent`
(after a failure at the root the loop still pops the stack and probes a
sibling, but the iteration ends without further emissions), pop the parent
stack if non-empty, and resume at a next sibling when one exists. -/
def wteRetrace (pred : α → Bool) (fname : GenericCursor α → γ) :
    Nat → GenericCursor α → List α → Option (List (α × Option α × γ))
  | 0, _, _ => none
  | fuel + 1, c, ps =>
    match c.gotoParent with
    | none => none
    | some (moved, c1) =>
      if moved then
        match c1.gotoNextSibling with
        | none => none
        | some (m2, c2) =>
          if m2 then wteAux pred fname fuel c2 ps.tail
          else wteRetrace pred fname fuel c2 ps.tail
      else
        some []

end

/-- `iternodes_with_edges(tuple-style cursor, traversal_filter)` run to
completion. -/
def wteRun (t : Tree α) (traversalFilter : Option (α → Bool)) (fname : GenericCursor α → γ) :
    Option (List (α × Option α × γ)) :=
  wteAux (effPred traversalFilter) fname (2 * t.size + 2) (tupleCursor t) []

/-! ## Hooks (`traversals.py`)

A hook bound by `TraversalHook.bind` sees, for every step of the stream,
`enter(step)`, then contributes `snapshot()` to the emitted pair, then sees
`exit(step)`.  The folds below replay exactly that protocol. -/

/-- The `Height` hook bound to a stream: `enter` adds one on `DOWN`, the
snapshot is paired with the step, `exit` subtracts one on `UP`. -/
def heightSteps : List (Step α) → Int → List (Int × Step α)
  | [], _ => []
  | step :: rest, h =>
    let h1 := if step.2 = .DOWN then h + 1 else h
    (h1, step) :: heightSteps rest (if step.2 = .UP then h1 - 1 else h1)

/-- `Height().bind(stream)` from the initial count `0`. -/
def heightBind (stream : List (Step α)) : List (Int × Step α) :=
  heightSteps stream 0

/-- The `with_height` stream transform: adds one *before* yielding on
`RIGHT` and `DOWN`, subtracts one after yielding on `UP`. -/
def withHeightSteps : List (Step α) → Int → List (Int × Step α)
  | [], _ => []
  | step :: rest, h =>
    if step.2 = .RIGHT ∨ step.2 = .DOWN then (h + 1, step) :: withHeightSteps rest (h + 1)
    else (h, step) :: withHeightSteps rest (h - 1)

/-- `with_height(stream)` from the initial count `0`. -/
def withHeight (stream : List (Step α)) : List (Int × Step α) :=
  withHeightSteps stream 0

/-- State of a `BroadcastL` hook: the inner `Height` hook's counter and the
`context_stack` of `(recorded height, value)` pairs, top first.  The
`NoContext` sentinel is modelled by `Option.none`. -/
structure BState (β : Type) : Type where
  height : Int
  stack : List (Int × β)

/-- `BroadcastL.enter`: forward to `Height.enter` (`DOWN` adds one), then on
an `UP` move pop the top context entry when its recorded height equals the
current counter. -/
def bEnter (st : BState β) (step : Step α) : BState β :=
  let h := if step.2 = .DOWN then st.height + 1 else st.height
  if step.2 = .UP then
    match st.stack with
    | (ch, _) :: rest => if ch = h then ⟨h, rest⟩ else ⟨h, st.stack⟩
    | [] => ⟨h, st.stack⟩
  else ⟨h, st.stack⟩

/-- `BroadcastL.snapshot`: `NO_CONTEXT` on an empty stack, else the top
value. -/
def bSnapshot (st : BState β) : Option β :=
  st.stack.head?.map (fun e => e.2)

/-- `BroadcastL.exit`: forward to `Height.exit` (`UP` subtracts one), then
on `RIGHT`/`DOWN` compute `fn(top-of-stack-or-NO_CONTEXT, node)` and push
the result with the current counter unless it is `NO_CONTEXT`. -/
def bExit (fn : Option β → α → Option β) (st : BState β) (step : Step α) : BState β :=
  let h := if step.2 = .UP then st.height - 1 else st.height
  if step.2 = .RIGHT ∨ step.2 = .DOWN then
    match fn (st.stack.head?.map (fun e => e.2)) step.1 with
    | some cv => ⟨h, (h, cv) :: st.stack⟩
    | none => ⟨h, st.stack⟩
  else ⟨h, st.stack⟩

/-- `BroadcastL(fn).bind(stream)` replayed from a given state, returning the
emitted `(snapshot, step)` pairs and the final hook state. -/
def broadcastSteps (fn : Option β → α → Option β) :
    List (Step α) → BState β → List (Option β × Step α) × BState β
  | [], st => ([], st)
  | step :: rest, st =>
    let st1 := bEnter st step
    let st2 := bExit fn st1 step
    let (outs, fin) := broadcastSteps fn rest st2
    ((bSnapshot st1, step) :: outs, fin)

/-- `broadcastl(fn).bind(stream)` from the initial state (counter `0`,
empty stack). -/
def broadcastBind (fn : Option β → α → Option β) (stream : List (Step α)) :
    List (Option β × Step α) :=
  (broadcastSteps fn stream ⟨0, []⟩).1

/-! ## Recursive characterisations

The functions below restate, by structural recursion on trees, the streams
computed by the fuel machines above.  They are verification artifacts: each
is proved to agree with the corresponding machine, and the claims are then
settled on whichever side is convenient. -/

/-- The `last_move` a sibling is reached with: `RIGHT` after an emitted
sibling, `DOWN` after a skipped one. -/
def nextMove (emitted : Bool) : Moves :=
  if emitted then .RIGHT else .DOWN

mutual

/-- The step stream `traverse` emits for the subtree at the cursor, arrived
at with `lastMove`: nothing when pruned; otherwise the arrival step, the
children's stream (first child arrived at with `DOWN`), and the `UP` step
emitted when coming back up (for a leaf the synthetic one). -/
def walkTree (pred : α → Bool) : Tree α → Moves → List (Step α)
  | .node v cs, lastMove =>
    if pred v then (v, lastMove) :: (walkSibs pred cs .DOWN ++ [(v, .UP)])
    else []
termination_by t _ => sizeOf t

/-- Stream of a sibling list, the first sibling arrived at with `m`. -/
def walkSibs (pred : α → Bool) : List (Tree α) → Moves → List (Step α)
  | [], _ => []
  | s :: rest, m => walkTree pred s m ++ walkSibs pred rest (nextMove (pred s.val))
termination_by l _ => sizeOf l

end

mutual

/-- Preorder sequence of all node values of a tree. -/
def preorder : Tree α → List α
  | .node v cs => v :: preorderL cs
termination_by t => sizeOf t

/-- Preorder sequences of a list of trees, concatenated. -/
def preorderL : List (Tree α) → List α
  | [] => []
  | t :: ts => preorder t ++ preorderL ts
termination_by l => sizeOf l

end

mutual

/-- Preorder sequence of the pruned tree: a pruned node contributes nothing,
its subtree included. -/
def pruneOrder (pred : α → Bool) : Tree α → List α
  | .node v cs => if pred v then v :: pruneSibs pred cs else []
termination_by t => sizeOf t

/-- `pruneOrder` over a list of trees, concatenated. -/
def pruneSibs (pred : α → Bool) : List (Tree α) → List α
  | [] => []
  | t :: ts => pruneOrder pred t ++ pruneSibs pred ts
termination_by l => sizeOf l

end

/-- Occurrences of a value in a list. -/
def countOcc [DecidableEq α] (a : α) : List α → Nat
  | [] => 0
  | b :: l => (if b = a then 1 else 0) + countOcc a l

mutual

/-- Occurrences of a value among the nodes of a tree. -/
def countVal [DecidableEq α] (a : α) : Tree α → Nat
  | .node v cs => (if v = a then 1 else 0) + countValL a cs
termination_by t => sizeOf t

/-- Occurrences of a value among the nodes of a list of trees. -/
def countValL [DecidableEq α] (a : α) : List (Tree α) → Nat
  | [] => 0
  | t :: ts => countVal a t + countValL a ts
termination_by l => sizeOf l

end

/-! ## Cursor configurations

A cursor reached by the engine from a `tuple_cursor` is described by a
context: the list, innermost first, of `(physical parent node, child index)`
pairs leading from the current position back to the root. -/

/-- Context: ancestors of the current position, innermost first, each with
the index of the child the path continues through. -/
abbrev Ctx (α : Type) := List (Tree α × Nat)

/-- The siblings still to the right of the current position. -/
def sibsOf : Ctx α → List (Tree α)
  | [] => []
  | (p, i) :: _ => p.children.drop (i + 1)

/-- The cursor `path` (root first) described by a context. -/
def pathOf (ctx : Ctx α) : List Nat :=
  (ctx.map (fun f => f.2)).reverse

/-- The cursor `parent_stack` (top first) described by a context. -/
def stackOf (ctx : Ctx α) : List (Tree α) :=
  ctx.map (fun f => f.1)

/-- The context is a real descent through `tree` ending at subtree `t`. -/
inductive ValidCtx (tree : Tree α) : Ctx α → Tree α → Prop where
  | root : ValidCtx tree [] tree
  | child {ctx : Ctx α} {p t : Tree α} {i : Nat} :
      ValidCtx tree ctx p → p.children[i]? = some t → ValidCtx tree ((p, i) :: ctx) t

/-- The cursor state corresponding to a context: correct tree, path and
parent stack, and a cache that is only trusted when clean. -/
def Inv (tree : Tree α) (ctx : Ctx α) (t : Tree α) (c : GenericCursor α) : Prop :=
  c.tree = tree ∧ c.path = pathOf ctx ∧ c.parentStack = stackOf ctx ∧
    ValidCtx tree ctx t ∧ (c.nodeDirty = false → c.nodeCache = t)

/-- Fuel needed to finish the traversal once the subtree of the current
position is done: two units per remaining node plus one per pending ascent. -/
def restWeight : Ctx α → Nat
  | [] => 0
  | (p, i) :: ctx => 2 * Tree.sizeL (p.children.drop (i + 1)) + 1 + restWeight ctx

/-- Steps still emitted by `traverse` after the subtree of a position with
context `ctx` is finished and no sibling remains at its level: one `UP` per
ascent, with the streams of the siblings resumed at each level. -/
def contStr (pred : α → Bool) : Ctx α → List (Step α)
  | [] => []
  | (p, _) :: ctx => (p.val, .UP) :: (walkSibs pred (sibsOf ctx) .RIGHT ++ contStr pred ctx)

/-- Node values still emitted by `iternodes_with_edges` after the subtree of
a position with context `ctx` is finished and no sibling remains at its
level. -/
def contP (pred : α → Bool) : Ctx α → List α
  | [] => []
  | _ :: ctx => pruneSibs pred (sibsOf ctx) ++ contP pred ctx

/-! ## Concrete inputs used by the tests, the spec and the analysis -/

/-- The tuple tree `(1, (2, 3), (4, (5,)))` of the repository's tests. -/
def exTree : Tree Nat := .node 1 [.node 2 [.node 3 []], .node 4 [.node 5 []]]

/-- The tuple tree `(1, (2, 3))`: `exTree` with node `4`'s subtree absent. -/
def exTreeNo4 : Tree Nat := .node 1 [.node 2 [.node 3 []]]

/-- The chain tree `(1, (4, (5, (6, 7))))` of the broadcast tests. -/
def chainTree : Tree Nat := .node 1 [.node 4 [.node 5 [.node 6 [.node 7 []]]]]

/-- The tuple tree `(0, (1, 2, (3, 4)), 9)`: node `1` has the two children
`2` and `(3, 4)`, and node `9` is the root's second child.  On this tree the
`BroadcastL` bookkeeping loses track of node `1`'s entry. -/
def leakTree : Tree Nat := .node 0 [.node 1 [.node 2 [], .node 3 [.node 4 []]], .node 9 []]

/-- The tuple tree `(1, 2, 3)`: two leaf children under the root. -/
def widthTree : Tree Nat := .node 1 [.node 2 [], .node 3 []]

/-- The tuple tree `(1, (2,))`: a root with one leaf child. -/
def pairTree : Tree Nat := .node 1 [.node 2 []]

/-- The reducer combine function of `test_broadcastl_with_reducer`:
`combine(prev, node) = node if prev is absent else prev * 10 + node`. -/
def reducerFn : Option Nat → Nat → Option Nat :=
  fun prev v => some (match prev with | none => v | some n => 10 * n + v)

/-- A combine function that pushes at every node: `combine(prev, node) =
node`. -/
def pushFn : Option Nat → Nat → Option Nat :=
  fun _ v => some v

/-! ## Basic lemmas -/

theorem Tree.size_pos (t : Tree α) : 1 ≤ t.size := by
  cases t with
  | node v cs => simp only [Tree.size]; omega

theorem nodeAtPath_nil (t : Tree α) : nodeAtPath t [] = some t := rfl

theorem nodeAtPath_append (t : Tree α) (p : List Nat) (i : Nat) :
    nodeAtPath t (p ++ [i]) = (nodeAtPath t p).bind (fun c => c.childAt i) := by
  simp [nodeAtPath, List.foldl_append]

theorem pathOf_nil : pathOf ([] : Ctx α) = [] := rfl

theorem pathOf_cons (p : Tree α) (i : Nat) (ctx : Ctx α) :
    pathOf ((p, i) :: ctx) = pathOf ctx ++ [i] := by
  simp [pathOf]

theorem stackOf_cons (p : Tree α) (i : Nat) (ctx : Ctx α) :
    stackOf ((p, i) :: ctx) = p :: stackOf ctx := rfl

theorem ValidCtx.inv_cons {tree p t : Tree α} {i : Nat} {ctx : Ctx α}
    (h : ValidCtx tree ((p, i) :: ctx) t) :
    ValidCtx tree ctx p ∧ p.children[i]? = some t := by
  cases h with
  | child h hc => exact ⟨h, hc⟩

theorem ValidCtx.nodeAtPath_eq {tree t : Tree α} {ctx : Ctx α}
    (h : ValidCtx tree ctx t) : nodeAtPath tree (pathOf ctx) = some t := by
  induction h with
  | root => rfl
  | @child ctx p t i _ hc ih =>
    rw [pathOf_cons, nodeAtPath_append, ih]
    simpa [Tree.childAt] using hc

theorem Inv.node_eq {tree t : Tree α} {ctx : Ctx α} {c : GenericCursor α}
    (h : Inv tree ctx t c) : c.node = some t.val := by
  obtain ⟨htree, hpath, _, hv, hcache⟩ := h
  unfold GenericCursor.node
  cases hd : c.nodeDirty with
  | false => rw [hcache hd]; rfl
  | true => rw [htree, hpath, hv.nodeAtPath_eq]; rfl

/-! ### Navigation under the invariant -/

theorem gotoFirstChild_leaf {tree t : Tree α} {ctx : Ctx α} {c : GenericCursor α}
    (h : Inv tree ctx t c) (hleaf : t.children = []) :
    c.gotoFirstChild = some (false, c) := by
  obtain ⟨htree, hpath, _, hv, _⟩ := h
  unfold GenericCursor.gotoFirstChild
  rw [htree, hpath, hv.nodeAtPath_eq]
  simp [Tree.isLeaf, Tree.childCount, hleaf]

theorem gotoFirstChild_node {tree t : Tree α} {ctx : Ctx α} {c : GenericCursor α}
    {ch : Tree α} {cs : List (Tree α)}
    (h : Inv tree ctx t c) (hch : t.children = ch :: cs) :
    ∃ c1, c.gotoFirstChild = some (true, c1) ∧ Inv tree ((t, 0) :: ctx) ch c1 := by
  obtain ⟨htree, hpath, hstack, hv, _⟩ := h
  refine ⟨⟨c.tree, c.path ++ [0], t :: c.parentStack, c.nodeCache, true⟩, ?_, ?_⟩
  · unfold GenericCursor.gotoFirstChild
    rw [htree, hpath, hv.nodeAtPath_eq]
    simp [Tree.isLeaf, Tree.childCount, hch]
  · refine ⟨htree, ?_, ?_, ?_, by simp⟩
    · rw [hpath, pathOf_cons]
    · rw [hstack, stackOf_cons]
    · exact hv.child (by simp [hch])

theorem gotoNextSibling_root {tree t : Tree α} {c : GenericCursor α}
    (h : Inv tree [] t c) : c.gotoNextSibling = some (false, c) := by
  obtain ⟨_, _, hstack, _, _⟩ := h
  unfold GenericCursor.gotoNextSibling
  rw [hstack]
  rfl

theorem gotoNextSibling_last {tree t p : Tree α} {i : Nat} {ctx : Ctx α}
    {c : GenericCursor α} (h : Inv tree ((p, i) :: ctx) t c)
    (hlast : ¬ i + 1 < p.children.length) :
    c.gotoNextSibling = some (false, c) := by
  obtain ⟨_, hpath, hstack, _, _⟩ := h
  unfold GenericCursor.gotoNextSibling
  rw [hstack, stackOf_cons, hpath, pathOf_cons, List.getLast?_concat]
  simp [Tree.childCount, hlast]

theorem gotoNextSibling_advance {tree t p : Tree α} {i : Nat} {ctx : Ctx α}
    {c : GenericCursor α} (h : Inv tree ((p, i) :: ctx) t c)
    (hlt : i + 1 < p.children.length) :
    ∃ c1, c.gotoNextSibling = some (true, c1) ∧
      Inv tree ((p, i + 1) :: ctx) (p.children[i + 1]) c1 := by
  obtain ⟨htree, hpath, hstack, hv, _⟩ := h
  refine ⟨⟨c.tree, c.path.dropLast ++ [i + 1], c.parentStack, c.nodeCache, true⟩, ?_, ?_⟩
  · unfold GenericCursor.gotoNextSibling
    rw [hstack, stackOf_cons, hpath, pathOf_cons, List.getLast?_concat]
    simp [Tree.childCount, hlt]
  · refine ⟨htree, ?_, ?_, ?_, by simp⟩
    · rw [hpath, pathOf_cons, List.dropLast_concat, pathOf_cons]
    · rw [hstack, stackOf_cons, stackOf_cons]
    · exact (hv.inv_cons).1.child (List.getElem?_eq_getElem hlt)

theorem gotoParent_root {tree t : Tree α} {c : GenericCursor α}
    (h : Inv tree [] t c) : c.gotoParent = some (false, c) := by
  obtain ⟨_, hpath, _, _, _⟩ := h
  unfold GenericCursor.gotoParent
  rw [hpath]
  rfl

theorem gotoParent_up {tree t p : Tree α} {i : Nat} {ctx : Ctx α}
    {c : GenericCursor α} (h : Inv tree ((p, i) :: ctx) t c) :
    ∃ c1, c.gotoParent = some (true, c1) ∧ Inv tree ctx p c1 := by
  obtain ⟨htree, hpath, hstack, hv, _⟩ := h
  refine ⟨⟨c.tree, c.path.dropLast, stackOf ctx, p, false⟩, ?_, ?_⟩
  · unfold GenericCursor.gotoParent
    rw [hstack, stackOf_cons, hpath, pathOf_cons]
    simp
  · exact ⟨htree, by rw [hpath, pathOf_cons, List.dropLast_concat], rfl,
      (hv.inv_cons).1, fun _ => rfl⟩

/-! ### The engine computes `walkTree`

The generalised simulation: from any cursor position described by a context,
with enough fuel, the three mutually recursive loop functions emit the
recursively characterised streams. -/

theorem traverse_main (pred : α → Bool) : ∀ fuel : Nat,
    (∀ (tree : Tree α) (ctx : Ctx α) (t : Tree α) (c : GenericCursor α) (lastMove : Moves),
      Inv tree ctx t c → 2 * t.size + restWeight ctx + 1 ≤ fuel →
      traverseAux pred fuel c lastMove =
        some (walkTree pred t lastMove ++
          (walkSibs pred (sibsOf ctx) (nextMove (pred t.val)) ++ contStr pred ctx))) ∧
    (∀ (tree : Tree α) (ctx : Ctx α) (t : Tree α) (c : GenericCursor α) (skip : Bool),
      Inv tree ctx t c → restWeight ctx + 2 ≤ fuel →
      sibGo pred fuel c skip =
        some (walkSibs pred (sibsOf ctx) (if skip then .DOWN else .RIGHT) ++ contStr pred ctx)) ∧
    (∀ (tree : Tree α) (ctx : Ctx α) (t : Tree α) (c : GenericCursor α),
      Inv tree ctx t c → restWeight ctx + 1 ≤ fuel →
      retraceAux pred fuel c = some (contStr pred ctx)) := by
  intro fuel
  induction fuel with
  | zero =>
    refine ⟨?_, ?_, ?_⟩ <;> intro tree ctx t c
    · intro lastMove _ hb
      have := Tree.size_pos t
      omega
    · intro skip _ hb
      omega
    · intro _ hb
      omega
  | succ n ih =>
    obtain ⟨ihT, ihS, ihR⟩ := ih
    refine ⟨?_, ?_, ?_⟩
    · -- the outer loop body
      intro tree ctx t c lastMove h hb
      obtain ⟨v, cs, rfl⟩ : ∃ v cs, t = Tree.node v cs := by
        cases t
        exact ⟨_, _, rfl⟩
      simp only [traverseAux]
      rw [h.node_eq]
      simp only [Tree.val]
      cases hp : pred v with
      | false =>
        simp only [Bool.false_eq_true, if_neg, reduceIte]
        rw [ihS tree ctx _ c true h (by
          have := Tree.size_pos (Tree.node v cs)
          omega)]
        simp [walkTree, hp, nextMove]
      | true =>
        simp only [reduceIte]
        cases cs with
        | nil =>
          rw [gotoFirstChild_leaf h rfl]
          simp only [reduceIte]
          rw [ihS tree ctx _ c false h (by
            simp only [Tree.size, Tree.sizeL] at hb
            omega)]
          simp [walkTree, walkSibs, hp, nextMove, Tree.val]
        | cons ch cs' =>
          obtain ⟨c1, hgfc, hinv1⟩ := gotoFirstChild_node h rfl
          rw [hgfc]
          simp only [reduceIte]
          rw [ihT tree ((Tree.node v (ch :: cs'), 0) :: ctx) ch c1 .DOWN hinv1 (by
            simp only [Tree.size, Tree.sizeL, restWeight, Tree.children,
              List.drop_succ_cons, List.drop_zero] at hb ⊢
            omega)]
          simp [walkTree, walkSibs, hp, nextMove, Tree.val, sibsOf, Tree.children,
            contStr, List.append_assoc]
    · -- the sibling step
      intro tree ctx t c skip h hb
      simp only [sibGo]
      cases ctx with
      | nil =>
        rw [gotoNextSibling_root h]
        simp only [reduceIte]
        rw [ihR tree [] t c h (by simp only [restWeight] at hb ⊢; omega)]
        simp [sibsOf, walkSibs]
      | cons f ctx' =>
        obtain ⟨p, i⟩ := f
        by_cases hlt : i + 1 < p.children.length
        · obtain ⟨c1, hns, hinv1⟩ := gotoNextSibling_advance h hlt
          rw [hns]
          simp only [reduceIte]
          have hdrop := List.drop_eq_getElem_cons hlt
          have hsz : Tree.sizeL (p.children.drop (i + 1)) =
              (p.children[i + 1]).size + Tree.sizeL (p.children.drop (i + 1 + 1)) := by
            rw [hdrop]
            rfl
          rw [ihT tree ((p, i + 1) :: ctx') (p.children[i + 1]) c1 _ hinv1 (by
            simp only [restWeight] at hb ⊢
            omega)]
          simp only [sibsOf, contStr, hdrop, walkSibs]
          simp [List.append_assoc]
        · rw [gotoNextSibling_last h hlt]
          simp only [reduceIte]
          rw [ihR tree ((p, i) :: ctx') t c h (by simp only [restWeight] at hb ⊢; omega)]
          have hnil : p.children.drop (i + 1) = [] :=
            List.drop_eq_nil_of_le (by omega)
          simp [sibsOf, hnil, walkSibs]
    · -- the retracing loop
      intro tree ctx t c h hb
      simp only [retraceAux]
      cases ctx with
      | nil =>
        rw [gotoParent_root h]
        simp [contStr]
      | cons f ctx' =>
        obtain ⟨p, i⟩ := f
        obtain ⟨c1, hgp, hinv1⟩ := gotoParent_up h
        rw [hgp]
        simp only [reduceIte]
        rw [hinv1.node_eq]
        cases ctx' with
        | nil =>
          rw [gotoNextSibling_root hinv1]
          simp only [reduceIte]
          rw [ihR tree [] p c1 hinv1 (by simp only [restWeight] at hb ⊢; omega)]
          simp [contStr, sibsOf, walkSibs]
        | cons g ctx'' =>
          obtain ⟨q, j⟩ := g
          by_cases hlt : j + 1 < q.children.length
          · obtain ⟨c2, hns, hinv2⟩ := gotoNextSibling_advance hinv1 hlt
            rw [hns]
            simp only [reduceIte]
            have hdrop := List.drop_eq_getElem_cons hlt
            have hsz : Tree.sizeL (q.children.drop (j + 1)) =
                (q.children[j + 1]).size + Tree.sizeL (q.children.drop (j + 1 + 1)) := by
              rw [hdrop]
              rfl
            rw [ihT tree ((q, j + 1) :: ctx'') (q.children[j + 1]) c2 .RIGHT hinv2 (by
              simp only [restWeight] at hb ⊢
              omega)]
            simp only [contStr, sibsOf, hdrop, walkSibs]
            simp [List.append_assoc]
          · rw [gotoNextSibling_last hinv1 hlt]
            simp only [reduceIte]
            rw [ihR tree ((q, j) :: ctx'') p c1 hinv1 (by
              simp only [restWeight] at hb ⊢
              omega)]
            have hnil : q.children.drop (j + 1) = [] :=
              List.drop_eq_nil_of_le (by omega)
            simp [contStr, sibsOf, hnil, walkSibs]

/-- The engine run from a fresh tuple cursor computes exactly
`walkTree`. -/
theorem traverseRun_eq_walkTree (t : Tree α) (sp : Option (α → Bool)) :
    traverseRun t sp = some (walkTree (effPred sp) t .DOWN) := by
  have h := ((traverse_main (effPred sp) (2 * t.size + 2)).1) t [] t (tupleCursor t) .DOWN
    ⟨rfl, rfl, rfl, ValidCtx.root, by simp [tupleCursor]⟩ (by simp only [restWeight]; omega)
  rw [traverseRun, h]
  simp [sibsOf, walkSibs, contStr, restWeight]

/-! ### Structural lemmas about the recursive characterisations -/

/-- Mutual induction over trees and lists of trees, by node count. -/
theorem tree_ind (P : Tree α → Prop) (Q : List (Tree α) → Prop)
    (hnode : ∀ v cs, Q cs → P (Tree.node v cs))
    (hnil : Q [])
    (hcons : ∀ t ts, P t → Q ts → Q (t :: ts)) :
    (∀ t, P t) ∧ (∀ l, Q l) := by
  have key : ∀ n, (∀ t : Tree α, t.size ≤ n → P t) ∧
      (∀ l : List (Tree α), Tree.sizeL l ≤ n → Q l) := by
    intro n
    induction n with
    | zero =>
      constructor
      · intro t ht
        have := Tree.size_pos t
        omega
      · intro l hl
        cases l with
        | nil => exact hnil
        | cons t ts =>
          exfalso
          have := Tree.size_pos t
          simp only [Tree.sizeL] at hl
          omega
    | succ n ih =>
      obtain ⟨ihP, ihQ⟩ := ih
      have hP : ∀ t : Tree α, t.size ≤ n + 1 → P t := by
        intro t ht
        cases t with
        | node v cs =>
          apply hnode
          apply ihQ
          simp only [Tree.size] at ht
          omega
      refine ⟨hP, ?_⟩
      intro l hl
      cases l with
      | nil => exact hnil
      | cons t ts =>
        simp only [Tree.sizeL] at hl
        have h1 := Tree.size_pos t
        exact hcons t ts (hP t (by omega)) (ihQ ts (by omega))
  exact ⟨fun t => (key t.size).1 t le_rfl, fun l => (key (Tree.sizeL l)).2 l le_rfl⟩

/-- `nextMove` never produces `UP`. -/
theorem nextMove_ne_up (b : Bool) : nextMove b ≠ .UP := by
  cases b <;> simp [nextMove]

/-- Unfolded form of the `DOWN`/`RIGHT` filter. -/
theorem filterMoves_DR (l : List (Step α)) :
    filterMoves [.DOWN, .RIGHT] l =
      l.filter (fun x => decide (x.2 = .DOWN) || decide (x.2 = .RIGHT)) := by
  unfold filterMoves
  apply List.filter_congr
  intro x _
  rcases x with ⟨a, m⟩
  cases m <;> rfl

/-- Keeping the `DOWN`/`RIGHT` steps of the engine's stream and projecting
to the node value yields the pruned preorder sequence. -/
theorem filter_walk (pred : α → Bool) :
    (∀ (t : Tree α) (m : Moves), m ≠ .UP →
      (filterMoves [.DOWN, .RIGHT] (walkTree pred t m)).map (fun st => st.1) =
        pruneOrder pred t) ∧
    (∀ (l : List (Tree α)) (m : Moves), m ≠ .UP →
      (filterMoves [.DOWN, .RIGHT] (walkSibs pred l m)).map (fun st => st.1) =
        pruneSibs pred l) := by
  refine tree_ind
    (fun t => ∀ m : Moves, m ≠ .UP →
      (filterMoves [.DOWN, .RIGHT] (walkTree pred t m)).map (fun st => st.1) =
        pruneOrder pred t)
    (fun l => ∀ m : Moves, m ≠ .UP →
      (filterMoves [.DOWN, .RIGHT] (walkSibs pred l m)).map (fun st => st.1) =
        pruneSibs pred l) ?_ ?_ ?_
  · intro v cs ihcs m hm
    cases hp : pred v with
    | false => simp [walkTree, pruneOrder, hp, filterMoves_DR]
    | true =>
      have hd := ihcs .DOWN (by simp)
      simp only [filterMoves_DR] at hd ⊢
      cases m with
      | UP => exact absurd rfl hm
      | DOWN =>
        simp only [walkTree, hp, reduceIte, pruneOrder]
        simp [hd]
      | RIGHT =>
        simp only [walkTree, hp, reduceIte, pruneOrder]
        simp [hd]
  · intro m _
    simp [walkSibs, pruneSibs, filterMoves_DR]
  · intro t ts iht ihts m hm
    simp only [filterMoves_DR] at iht ihts ⊢
    simp only [walkSibs, pruneSibs, List.filter_append, List.map_append]
    rw [iht m hm, ihts (nextMove (pred t.val)) (nextMove_ne_up _)]

/-- Every step of the engine's stream carries a value of the pruned
preorder sequence. -/
theorem mem_walk (pred : α → Bool) :
    (∀ (t : Tree α) (m : Moves) (st : Step α),
      st ∈ walkTree pred t m → st.1 ∈ pruneOrder pred t) ∧
    (∀ (l : List (Tree α)) (m : Moves) (st : Step α),
      st ∈ walkSibs pred l m → st.1 ∈ pruneSibs pred l) := by
  refine tree_ind
    (fun t => ∀ (m : Moves) (st : Step α), st ∈ walkTree pred t m → st.1 ∈ pruneOrder pred t)
    (fun l => ∀ (m : Moves) (st : Step α), st ∈ walkSibs pred l m → st.1 ∈ pruneSibs pred l)
    ?_ ?_ ?_
  · intro v cs ihcs m st hst
    cases hp : pred v with
    | false => simp [walkTree, hp] at hst
    | true =>
      simp only [walkTree, hp, reduceIte, List.mem_cons, List.mem_append,
        List.mem_singleton, List.not_mem_nil, or_false] at hst
      rcases hst with h | h | h
      · simp [pruneOrder, hp, h]
      · simpa [pruneOrder, hp] using Or.inr (ihcs .DOWN st h)
      · simp [pruneOrder, hp, h]
  · intro m st hst
    simp [walkSibs] at hst
  · intro t ts iht ihts m st hst
    simp only [walkSibs, List.mem_append] at hst
    simp only [pruneSibs, List.mem_append]
    rcases hst with h | h
    · exact Or.inl (iht m st h)
    · exact Or.inr (ihts _ st h)

/-- Values of the pruned preorder sequence satisfy the predicate. -/
theorem pred_of_mem_prune (pred : α → Bool) :
    (∀ (t : Tree α) (a : α), a ∈ pruneOrder pred t → pred a = true) ∧
    (∀ (l : List (Tree α)) (a : α), a ∈ pruneSibs pred l → pred a = true) := by
  refine tree_ind
    (fun t => ∀ a : α, a ∈ pruneOrder pred t → pred a = true)
    (fun l => ∀ a : α, a ∈ pruneSibs pred l → pred a = true) ?_ ?_ ?_
  · intro v cs ihcs a ha
    cases hp : pred v with
    | false => simp [pruneOrder, hp] at ha
    | true =>
      simp only [pruneOrder, hp, reduceIte, List.mem_cons] at ha
      rcases ha with rfl | ha
      · exact hp
      · exact ihcs a ha
  · intro a ha
    simp [pruneSibs] at ha
  · intro t ts iht ihts a ha
    simp only [pruneSibs, List.mem_append] at ha
    rcases ha with h | h
    · exact iht a h
    · exact ihts a h

/-- Without pruning, the pruned preorder sequence is the preorder
sequence. -/
theorem pruneOrder_top :
    (∀ t : Tree α, pruneOrder (fun _ => true) t = preorder t) ∧
    (∀ l : List (Tree α), pruneSibs (fun _ => true) l = preorderL l) := by
  refine tree_ind
    (fun t : Tree α => pruneOrder (fun _ => true) t = preorder t)
    (fun l : List (Tree α) => pruneSibs (fun _ => true) l = preorderL l) ?_ ?_ ?_
  · intro v cs ihcs
    simp [pruneOrder, preorder, ihcs]
  · simp [pruneSibs, preorderL]
  · intro t ts iht ihts
    simp [pruneSibs, preorderL, iht, ihts]

theorem countOcc_append [DecidableEq α] (a : α) (l1 l2 : List α) :
    countOcc a (l1 ++ l2) = countOcc a l1 + countOcc a l2 := by
  induction l1 with
  | nil => simp [countOcc]
  | cons b l ih => simp [countOcc, ih]; omega

/-- The preorder sequence lists every node value with its multiplicity in
the tree. -/
theorem countOcc_preorder [DecidableEq α] (a : α) :
    (∀ t : Tree α, countOcc a (preorder t) = countVal a t) ∧
    (∀ l : List (Tree α), countOcc a (preorderL l) = countValL a l) := by
  refine tree_ind
    (fun t : Tree α => countOcc a (preorder t) = countVal a t)
    (fun l : List (Tree α) => countOcc a (preorderL l) = countValL a l) ?_ ?_ ?_
  · intro v cs ihcs
    simp [preorder, countOcc, countVal, ihcs]
  · simp [preorderL, countOcc, countValL]
  · intro t ts iht ihts
    simp [preorderL, countValL, countOcc_append, iht, ihts]

/-- A pruned starting node produces an empty stream. -/
theorem walkTree_root_false (pred : α → Bool) (t : Tree α) (m : Moves)
    (h : pred t.val = false) : walkTree pred t m = [] := by
  cases t with
  | node v cs =>
    simp only [Tree.val] at h
    simp [walkTree, h]

/-! ### `iternodes_with_edges` computes the pruned preorder sequence

The independent loop of `iter.py` is characterised the same way: the node
projection of its output is the pruned preorder sequence.  The parent stack
`ps` and the field-name function never influence which nodes are emitted, so
the lemma quantifies over them. -/

theorem wte_main (pred : α → Bool) (fname : GenericCursor α → γ) : ∀ fuel : Nat,
    (∀ (tree : Tree α) (ctx : Ctx α) (t : Tree α) (c : GenericCursor α) (ps : List α),
      Inv tree ctx t c → 2 * t.size + restWeight ctx + 1 ≤ fuel →
      ∃ out, wteAux pred fname fuel c ps = some out ∧
        out.map (fun tr => tr.1) =
          pruneOrder pred t ++ (pruneSibs pred (sibsOf ctx) ++ contP pred ctx)) ∧
    (∀ (tree : Tree α) (ctx : Ctx α) (t : Tree α) (c : GenericCursor α) (ps : List α),
      Inv tree ctx t c → restWeight ctx + 2 ≤ fuel →
      ∃ out, wteSib pred fname fuel c ps = some out ∧
        out.map (fun tr => tr.1) = pruneSibs pred (sibsOf ctx) ++ contP pred ctx) ∧
    (∀ (tree : Tree α) (ctx : Ctx α) (t : Tree α) (c : GenericCursor α) (ps : List α),
      Inv tree ctx t c → restWeight ctx + 1 ≤ fuel →
      ∃ out, wteRetrace pred fname fuel c ps = some out ∧
        out.map (fun tr => tr.1) = contP pred ctx) := by
  intro fuel
  induction fuel with
  | zero =>
    refine ⟨?_, ?_, ?_⟩ <;> intro tree ctx t c ps
    · intro _ hb
      have := Tree.size_pos t
      omega
    · intro _ hb
      omega
    · intro _ hb
      omega
  | succ n ih =>
    obtain ⟨ihT, ihS, ihR⟩ := ih
    refine ⟨?_, ?_, ?_⟩
    · intro tree ctx t c ps h hb
      obtain ⟨v, cs, rfl⟩ : ∃ v cs, t = Tree.node v cs := by
        cases t
        exact ⟨_, _, rfl⟩
      simp only [wteAux]
      rw [h.node_eq]
      simp only [Tree.val]
      cases hp : pred v with
      | false =>
        simp only [Bool.false_eq_true, reduceIte]
        obtain ⟨out, heq, hproj⟩ := ihS tree ctx _ c ps h (by
          have := Tree.size_pos (Tree.node v cs)
          omega)
        exact ⟨out, heq, by simp [hproj, pruneOrder, hp]⟩
      | true =>
        simp only [reduceIte]
        cases cs with
        | nil =>
          rw [gotoFirstChild_leaf h rfl]
          simp only [reduceIte]
          obtain ⟨out, heq, hproj⟩ := ihS tree ctx _ c ps h (by
            simp only [Tree.size, Tree.sizeL] at hb
            omega)
          refine ⟨(v, ps.head?, fname c) :: out, by rw [heq]; rfl, ?_⟩
          simp [hproj, pruneOrder, pruneSibs, hp]
        | cons ch cs' =>
          obtain ⟨c1, hgfc, hinv1⟩ := gotoFirstChild_node h rfl
          rw [hgfc]
          simp only [reduceIte]
          obtain ⟨out, heq, hproj⟩ := ihT tree ((Tree.node v (ch :: cs'), 0) :: ctx) ch c1
            (v :: ps) hinv1 (by
              simp only [Tree.size, Tree.sizeL, restWeight, Tree.children,
                List.drop_succ_cons, List.drop_zero] at hb ⊢
              omega)
          refine ⟨(v, ps.head?, fname c) :: out, by rw [heq]; rfl, ?_⟩
          simp only [List.map_cons, hproj, sibsOf, Tree.children, List.drop_succ_cons,
            List.drop_zero, contP, pruneOrder, pruneSibs, hp, reduceIte]
          simp [List.append_assoc]
    · intro tree ctx t c ps h hb
      simp only [wteSib]
      cases ctx with
      | nil =>
        rw [gotoNextSibling_root h]
        simp only [reduceIte]
        obtain ⟨out, heq, hproj⟩ := ihR tree [] t c ps h (by
          simp only [restWeight] at hb ⊢
          omega)
        exact ⟨out, heq, by simp [hproj, sibsOf, pruneSibs, contP]⟩
      | cons f ctx' =>
        obtain ⟨p, i⟩ := f
        by_cases hlt : i + 1 < p.children.length
        · obtain ⟨c1, hns, hinv1⟩ := gotoNextSibling_advance h hlt
          rw [hns]
          simp only [reduceIte]
          have hdrop := List.drop_eq_getElem_cons hlt
          have hsz : Tree.sizeL (p.children.drop (i + 1)) =
              (p.children[i + 1]).size + Tree.sizeL (p.children.drop (i + 1 + 1)) := by
            rw [hdrop]
            rfl
          obtain ⟨out, heq, hproj⟩ := ihT tree ((p, i + 1) :: ctx') (p.children[i + 1]) c1
            ps hinv1 (by
              simp only [restWeight] at hb ⊢
              omega)
          refine ⟨out, heq, ?_⟩
          simp only [hproj, sibsOf, contP, hdrop, pruneSibs]
          simp [List.append_assoc]
        · rw [gotoNextSibling_last h hlt]
          simp only [reduceIte]
          obtain ⟨out, heq, hproj⟩ := ihR tree ((p, i) :: ctx') t c ps h (by
            simp only [restWeight] at hb ⊢
            omega)
          have hnil : p.children.drop (i + 1) = [] :=
            List.drop_eq_nil_of_le (by omega)
          exact ⟨out, heq, by simp [hproj, sibsOf, hnil, pruneSibs]⟩
    · intro tree ctx t c ps h hb
      simp only [wteRetrace]
      cases ctx with
      | nil =>
        rw [gotoParent_root h]
        exact ⟨[], rfl, rfl⟩
      | cons f ctx' =>
        obtain ⟨p, i⟩ := f
        obtain ⟨c1, hgp, hinv1⟩ := gotoParent_up h
        rw [hgp]
        simp only [reduceIte]
        cases ctx' with
        | nil =>
          rw [gotoNextSibling_root hinv1]
          simp only [reduceIte]
          obtain ⟨out, heq, hproj⟩ := ihR tree [] p c1 ps.tail hinv1 (by
            simp only [restWeight] at hb ⊢
            omega)
          exact ⟨out, heq, by simp [hproj, contP, sibsOf, pruneSibs]⟩
        | cons g ctx'' =>
          obtain ⟨q, j⟩ := g
          by_cases hlt : j + 1 < q.children.length
          · obtain ⟨c2, hns, hinv2⟩ := gotoNextSibling_advance hinv1 hlt
            rw [hns]
            simp only [reduceIte]
            have hdrop := List.drop_eq_getElem_cons hlt
            have hsz : Tree.sizeL (q.children.drop (j + 1)) =
                (q.children[j + 1]).size + Tree.sizeL (q.children.drop (j + 1 + 1)) := by
              rw [hdrop]
              rfl
            obtain ⟨out, heq, hproj⟩ := ihT tree ((q, j + 1) :: ctx'') (q.children[j + 1])
              c2 ps.tail hinv2 (by
                simp only [restWeight] at hb ⊢
                omega)
            refine ⟨out, heq, ?_⟩
            simp only [hproj, contP, sibsOf, hdrop, pruneSibs]
            simp [List.append_assoc]
          · rw [gotoNextSibling_last hinv1 hlt]
            simp only [reduceIte]
            obtain ⟨out, heq, hproj⟩ := ihR tree ((q, j) :: ctx'') p c1 ps.tail hinv1 (by
              simp only [restWeight] at hb ⊢
              omega)
            have hnil : q.children.drop (j + 1) = [] :=
              List.drop_eq_nil_of_le (by omega)
            exact ⟨out, heq, by simp [hproj, contP, sibsOf, hnil, pruneSibs]⟩

/-- The `iternodes_with_edges` loop run from a fresh tuple cursor emits
exactly the pruned preorder sequence of nodes. -/
theorem wteRun_nodes (t : Tree α) (tf : Option (α → Bool)) (fname : GenericCursor α → γ) :
    ∃ out, wteRun t tf fname = some out ∧
      out.map (fun tr => tr.1) = pruneOrder (effPred tf) t := by
  obtain ⟨out, heq, hproj⟩ := ((wte_main (effPred tf) fname (2 * t.size + 2)).1) t [] t
    (tupleCursor t) [] ⟨rfl, rfl, rfl, ValidCtx.root, by simp [tupleCursor]⟩
    (by simp only [restWeight]; omega)
  refine ⟨out, heq, ?_⟩
  simpa [sibsOf, pruneSibs, contP] using hproj

/-- `iternodes` emits exactly the pruned preorder sequence. -/
theorem iternodesRun_eq_pruneOrder (t : Tree α) (tf : Option (α → Bool)) :
    iternodesRun t tf = some (pruneOrder (effPred tf) t) := by
  rw [iternodesRun, traverseRun_eq_walkTree]
  have hpred : effPred (some fun v => effPred tf v) = effPred tf := rfl
  rw [Option.map_some', hpred, (filter_walk (effPred tf)).1 t .DOWN (by simp)]

/-! ## The claims -/

/-- C1: for every tree, `traverse` run without a pruning predicate, with its
step stream filtered to `DOWN` and `RIGHT` moves and projected to the node
value (as `iternodes` does), yields exactly the preorder sequence of the
tree's nodes, each node appearing exactly once (the sequence realises each
value with its multiplicity in the tree). -/
theorem C1_iternodes_preorder {α : Type} [DecidableEq α] (t : Tree α) :
    iternodesRun t none = some (preorder t) ∧
    ∀ a : α, countOcc a (preorder t) = countVal a t := by
  constructor
  · rw [iternodesRun_eq_pruneOrder]
    have hpred : effPred (none : Option (α → Bool)) = fun _ => true := rfl
    rw [hpred, pruneOrder_top.1 t]
  · exact fun a => (countOcc_preorder a).1 t

/-- C2: `traverse` on a cursor over the tuple tree `(1, (2,3), (4,(5,)))`
with no pruning predicate yields exactly the ten steps
`(1,DOWN) (2,DOWN) (3,DOWN) (3,UP) (2,UP) (4,RIGHT) (5,DOWN) (5,UP) (4,UP)
(1,UP)`, in that order, including one synthetic `UP` step for each of the
two leaves. -/
theorem C2_traverse_example :
    traverseRun exTree none =
      some [(1, .DOWN), (2, .DOWN), (3, .DOWN), (3, .UP), (2, .UP),
        (4, .RIGHT), (5, .DOWN), (5, .UP), (4, .UP), (1, .UP)] := by
  rfl

/-- C3 (counterexample): on the tree `(1, (2,3), (4,(5,)))` with the
predicate excluding node `4`, the claim says a step for node `4` (and its
synthetic leaf `UP`) is still emitted; the engine's output contains no step
whose node is `4` at all. -/
theorem C3_counterexample :
    traverseRun exTree (some (fun v => !(v == 4))) =
      some [(1, .DOWN), (2, .DOWN), (3, .DOWN), (3, .UP), (2, .UP), (1, .UP)] ∧
    ([(1, .DOWN), (2, .DOWN), (3, .DOWN), (3, .UP), (2, .UP), (1, .UP)] :
        List (Step Nat)).all (fun st => !(st.1 == 4)) = true := by
  exact ⟨rfl, rfl⟩

/-- C3 (amended): for every tree and every `should_traverse` predicate, when
the predicate returns false at a node, `traverse` emits no step at all for
that node — neither an arrival step nor the synthetic leaf `UP` — and skips
its whole subtree; the node is excluded from the output together with its
descendants. -/
theorem C3_pruned_node_not_emitted {α : Type} (t : Tree α) (pred : α → Bool) :
    ∃ steps, traverseRun t (some pred) = some steps ∧
      ∀ (v : α) (m : Moves), pred v = false → (v, m) ∉ steps := by
  have heq : traverseRun t (some pred) = some (walkTree pred t .DOWN) :=
    traverseRun_eq_walkTree t (some pred)
  refine ⟨walkTree pred t .DOWN, heq, ?_⟩
  intro v m hv hmem
  have h1 := (mem_walk pred).1 t .DOWN (v, m) hmem
  have h2 := (pred_of_mem_prune pred).1 t v h1
  rw [hv] at h2
  exact Bool.false_ne_true h2

/-- Witness for C3 (amended) at the tree `(1, (2,3), (4,(5,)))` and the
predicate excluding node `4`. -/
theorem C3_pruned_node_not_emitted_witness :
    ∃ steps, traverseRun exTree (some (fun v => !(v == 4))) = some steps ∧
      (4, Moves.DOWN) ∉ steps := by
  obtain ⟨steps, heq, hmem⟩ := C3_pruned_node_not_emitted exTree (fun v => !(v == 4))
  exact ⟨steps, heq, hmem 4 .DOWN (by decide)⟩

/-- C4: for every tree and every `traversal_filter` predicate, the node
sequence produced by `iternodes` equals, element for element and in the same
order, the node projection (first component) of the triples produced by
`iternodes_with_edges`, whatever values the field-name accessor returns,
even though the two are implemented independently. -/
theorem C4_iternodes_agrees_with_edges {α γ : Type} (t : Tree α) (pred : α → Bool)
    (fname : GenericCursor α → γ) :
    ∃ nodes, iternodesRun t (some pred) = some nodes ∧
      (wteRun t (some pred) fname).map (List.map (fun tr => tr.1)) = some nodes := by
  obtain ⟨out, heq, hproj⟩ := wteRun_nodes t (some pred) fname
  refine ⟨pruneOrder (effPred (some pred)) t, iternodesRun_eq_pruneOrder t (some pred), ?_⟩
  rw [heq, Option.map_some', hproj]

/-- C5: binding the `BroadcastL` reducer hook to the traverse stream of
`(1, (4, (5, (6, 7))))` does yield snapshots `1, 14, 145, 1456` at nodes
`4, 5, 6, 7` with the absent sentinel at node `1` — but the general sentence
fails: on `(0, (1, 2, (3, 4)), 9)` the step `(9, RIGHT)` carries snapshot
`some 1`, a value pushed by node `1`, which is not an ancestor of node `9`;
its nearest non-absent ancestor, the root, pushed `0`. -/
theorem C5_broadcast_reducer_eval :
    (traverseRun chainTree none).map (broadcastBind reducerFn) =
      some [(none, (1, .DOWN)), (some 1, (4, .DOWN)), (some 14, (5, .DOWN)),
        (some 145, (6, .DOWN)), (some 1456, (7, .DOWN)), (some 1456, (7, .UP)),
        (some 145, (6, .UP)), (some 14, (5, .UP)), (some 1, (4, .UP)),
        (none, (1, .UP))] ∧
    (traverseRun leakTree none).map (broadcastBind reducerFn) =
      some [(none, (0, .DOWN)), (some 0, (1, .DOWN)), (some 1, (2, .DOWN)),
        (some 1, (2, .UP)), (some 1, (3, .RIGHT)), (some 13, (4, .DOWN)),
        (some 13, (4, .UP)), (some 1, (3, .UP)), (some 1, (1, .UP)),
        (some 1, (9, .RIGHT)), (some 1, (9, .UP)), (some 1, (0, .UP))] := by
  exact ⟨rfl, rfl⟩

/-- C6: the claim says the `Height` hook's snapshot at every `DOWN` or
`RIGHT` step equals the node's depth relative to the traversal's start,
including for nodes reached via `RIGHT`.  On `(1, 2, 3)` the hook pairs
snapshot `2` with node `2` and snapshot `1` with node `3`, though both
children sit at the same depth; `with_height`, which also counts `RIGHT`
moves, assigns both the consistent value `2`. -/
theorem C6_height_eval :
    traverseRun widthTree none =
      some [(1, .DOWN), (2, .DOWN), (2, .UP), (3, .RIGHT), (3, .UP), (1, .UP)] ∧
    heightBind [((1 : Nat), Moves.DOWN), (2, .DOWN), (2, .UP), (3, .RIGHT), (3, .UP), (1, .UP)] =
      [(1, (1, .DOWN)), (2, (2, .DOWN)), (2, (2, .UP)), (1, (3, .RIGHT)),
        (1, (3, .UP)), (0, (1, .UP))] ∧
    withHeight [((1 : Nat), Moves.DOWN), (2, .DOWN), (2, .UP), (3, .RIGHT), (3, .UP), (1, .UP)] =
      [(1, (1, .DOWN)), (2, (2, .DOWN)), (2, (2, .UP)), (2, (3, .RIGHT)),
        (2, (3, .UP)), (1, (1, .UP))] := by
  exact ⟨rfl, rfl, rfl⟩

/-- C7: pruning the last sibling still retraces correctly through every
ancestor: `traverse` on `(1, (2,3), (4,(5,)))` with a predicate excluding
node `4` yields exactly `(1,DOWN)(2,DOWN)(3,DOWN)(3,UP)(2,UP)(1,UP)` — the
same move stream as traversing the tree with node `4`'s subtree absent. -/
theorem C7_prune_last_sibling :
    traverseRun exTree (some (fun v => !(v == 4))) =
      some [(1, .DOWN), (2, .DOWN), (3, .DOWN), (3, .UP), (2, .UP), (1, .UP)] ∧
    traverseRun exTreeNo4 none =
      some [(1, .DOWN), (2, .DOWN), (3, .DOWN), (3, .UP), (2, .UP), (1, .UP)] := by
  exact ⟨rfl, rfl⟩

/-- C8: the claim says a cursor produced by `copy()` below the root
satisfies the navigation contract, in particular that `goto_parent`
succeeds and repositions to the parent.  On the tree `(1, (2,))`:
descending to the child and copying yields a cursor whose `parent_stack`
is empty while its path is not, so `goto_parent` hits `parent_stack.pop()`
on an empty list and raises `IndexError` (modelled by `none`), while on
the original it succeeds. -/
theorem C8_copy_goto_parent_raises :
    (tupleCursor pairTree).gotoFirstChild =
      some (true, ⟨pairTree, [0], [pairTree], pairTree, true⟩) ∧
    (⟨pairTree, [0], [pairTree], pairTree, true⟩ : GenericCursor Nat).copy =
      ⟨pairTree, [0], [], pairTree, true⟩ ∧
    (⟨pairTree, [0], [], pairTree, true⟩ : GenericCursor Nat).gotoParent = none ∧
    (⟨pairTree, [0], [pairTree], pairTree, true⟩ : GenericCursor Nat).gotoParent =
      some (true, ⟨pairTree, [], [], pairTree, false⟩) := by
  exact ⟨rfl, rfl, rfl, rfl⟩

/-- C9: the claim says the heights in `BroadcastL`'s context stack are
monotonically increasing from bottom to top and an entry is popped exactly
on the `UP` step whose current depth equals its recorded height.  Running
the always-pushing combine over `(0, (1, 2, (3, 4)), 9)`: after the tenth
step (`(9, RIGHT)`) the stack, top first, is `[(0, 9), (2, 1), (1, 0)]` —
bottom-to-top heights `1, 2, 0`, not monotone — and at the end of the
traversal the entry of height `2` (pushed at node `1`) is still on the
stack, never popped. -/
theorem C9_stack_invariant_violated :
    (traverseRun leakTree none).map
        (fun steps => (broadcastSteps pushFn (steps.take 10) ⟨0, []⟩).2.stack) =
      some [(0, 9), (2, 1), (1, 0)] ∧
    (traverseRun leakTree none).map
        (fun steps => (broadcastSteps pushFn steps ⟨0, []⟩).2.stack) =
      some [(2, 1), (1, 0)] := by
  exact ⟨rfl, rfl⟩

/-- C10: for every tree and every `should_traverse` predicate, `traverse`
emits no step whatsoever for a pruned node or its descendants — its fresh
visits realise exactly the preorder of the pruned tree, every emitted value
belongs to it, and a predicate false at the starting node yields an empty
stream. -/
theorem C10_pruned_subtree_excluded {α : Type} (t : Tree α) (pred : α → Bool) :
    ∃ steps, traverseRun t (some pred) = some steps ∧
      (filterMoves [.DOWN, .RIGHT] steps).map (fun st => st.1) = pruneOrder pred t ∧
      (∀ st ∈ steps, st.1 ∈ pruneOrder pred t) ∧
      (pred t.val = false → steps = []) := by
  have heq : traverseRun t (some pred) = some (walkTree pred t .DOWN) :=
    traverseRun_eq_walkTree t (some pred)
  refine ⟨walkTree pred t .DOWN, heq, ?_, ?_, ?_⟩
  · exact (filter_walk pred).1 t .DOWN (by simp)
  · exact fun st hst => (mem_walk pred).1 t .DOWN st hst
  · exact fun h => walkTree_root_false pred t .DOWN h

/-- Witness for C10 at the tree `(4, (5,))` and the predicate excluding
node `4`: the predicate is false at the start, and the stream is empty. -/
theorem C10_pruned_subtree_excluded_witness :
    ∃ steps, traverseRun (Tree.node 4 [Tree.node 5 []] : Tree Nat)
        (some (fun v => !(v == 4))) = some steps ∧ steps = [] := by
  obtain ⟨steps, heq, _, _, hroot⟩ :=
    C10_pruned_subtree_excluded (Tree.node 4 [Tree.node 5 []] : Tree Nat)
      (fun v => !(v == 4))
  exact ⟨steps, heq, hroot (by decide)⟩

end TsUtils
